import Mathlib

/-!
Verification of the Minesweeper inference engine (`minesweeper.py`):
the `Sentence` constraint type and the `MinesweeperAI` knowledge base
(`mark_mine`, `mark_safe`, `add_knowledge`, `make_random_move`).

Cells are integer coordinate pairs (Python tuples of ints); sentence cell
collections are finite sets (Python `set`); counts are integers (Python `int`,
which may go negative).  The knowledge base is a list of sentences (Python
`list`); Python's structural `==` on sentences is Lean's `=` on the
`Sentence` structure.

Loops in the source that iterate over an unordered Python `set` and apply
commuting, idempotent per-element updates (the marking loops of step 4 of
`add_knowledge`) are embedded by their aggregate effect on the set, which is
independent of the iteration order the Python runtime happens to choose.
The `while updatesDone` loop is embedded with explicit fuel; the fuel chosen
is provably sufficient (`propChanged_propLoop`), matching the source loop
which always runs to quiescence.
-/

abbrev Cell := ℤ × ℤ

/-- `class Sentence`: a set of board cells and a count of how many are mines. -/
structure Sentence where
  cells : Finset Cell
  count : ℤ
  deriving DecidableEq

namespace Sentence

/-- `Sentence.known_mines`: all cells are mines iff the cell count equals `count`. -/
def known_mines (s : Sentence) : Finset Cell :=
  if (s.cells.card : ℤ) = s.count then s.cells else ∅

/-- `Sentence.known_safes`: all cells are safe iff `count == 0`. -/
def known_safes (s : Sentence) : Finset Cell :=
  if s.count = 0 then s.cells else ∅

/-- `Sentence.mark_mine`: remove a known mine from the sentence, decrementing `count`. -/
def mark_mine (s : Sentence) (cell : Cell) : Sentence :=
  if cell ∈ s.cells then ⟨s.cells.erase cell, s.count - 1⟩ else s

/-- `Sentence.mark_safe`: remove a known safe cell from the sentence, `count` unchanged. -/
def mark_safe (s : Sentence) (cell : Cell) : Sentence :=
  if cell ∈ s.cells then ⟨s.cells.erase cell, s.count⟩ else s

end Sentence

/-- The mutable state of `class MinesweeperAI`. -/
structure AIState where
  height : ℤ
  width : ℤ
  moves_made : Finset Cell
  mines : Finset Cell
  safes : Finset Cell
  knowledge : List Sentence
  deriving DecidableEq

/-- `MinesweeperAI.__init__`. -/
def initialAI (h w : ℤ) : AIState :=
  { height := h, width := w, moves_made := ∅, mines := ∅, safes := ∅, knowledge := [] }

namespace AIState

/-- `MinesweeperAI.mark_mine`: record the mine and update every sentence. -/
def mark_mine (s : AIState) (cell : Cell) : AIState :=
  { s with mines := insert cell s.mines,
           knowledge := s.knowledge.map (fun st => st.mark_mine cell) }

/-- `MinesweeperAI.mark_safe`: record the safe cell and update every sentence. -/
def mark_safe (s : AIState) (cell : Cell) : AIState :=
  { s with safes := insert cell s.safes,
           knowledge := s.knowledge.map (fun st => st.mark_safe cell) }

end AIState

/-- The bounds test `0 <= i < self.height and 0 <= j < self.width`. -/
def inBdsDim (h w : ℤ) (c : Cell) : Prop :=
  0 ≤ c.1 ∧ c.1 < h ∧ 0 ≤ c.2 ∧ c.2 < w

instance (h w : ℤ) (c : Cell) : Decidable (inBdsDim h w c) :=
  inferInstanceAs (Decidable (0 ≤ c.1 ∧ c.1 < h ∧ 0 ≤ c.2 ∧ c.2 < w))

/-- All cells of the board, as enumerated by `range(self.height) × range(self.width)`. -/
def gridCellsDim (h w : ℤ) : Finset Cell :=
  Finset.Icc 0 (h - 1) ×ˢ Finset.Icc 0 (w - 1)

/-- In-bounds cells at Chebyshev distance exactly 1 from `cell` (the true
neighborhood used by `Minesweeper.nearby_mines`). -/
def chebNbrsDim (h w : ℤ) (cell : Cell) : Finset Cell :=
  (gridCellsDim h w).filter
    (fun c => c ≠ cell ∧ cell.1 - 1 ≤ c.1 ∧ c.1 ≤ cell.1 + 1 ∧
              cell.2 - 1 ≤ c.2 ∧ c.2 ≤ cell.2 + 1)

/-- The 3 × 3 block scanned by the nested loops
`for i in range(cell[0]-1, cell[0]+2): for j in range(cell[1]-1, cell[1]+2)`,
in iteration order (the center is skipped inside the loop body, as in the source). -/
def nbrCandidates (cell : Cell) : List Cell :=
  [(cell.1 - 1, cell.2 - 1), (cell.1 - 1, cell.2), (cell.1 - 1, cell.2 + 1),
   (cell.1,     cell.2 - 1), (cell.1,     cell.2), (cell.1,     cell.2 + 1),
   (cell.1 + 1, cell.2 - 1), (cell.1 + 1, cell.2), (cell.1 + 1, cell.2 + 1)]

/-- One iteration of the neighbor loop of `add_knowledge` step 3: skip the cell
itself and out-of-bounds candidates; a known mine lowers the running count and
is excluded; a known safe is excluded; anything else joins the new cell set. -/
def neighborStep (s : AIState) (cell : Cell) (acc : Finset Cell × ℤ) (nb : Cell) :
    Finset Cell × ℤ :=
  if nb = cell then acc
  else if inBdsDim s.height s.width nb then
    if nb ∈ s.mines then (acc.1, acc.2 - 1)
    else if nb ∉ s.safes then (insert nb acc.1, acc.2)
    else acc
  else acc

/-- The neighbor scan of `add_knowledge` step 3: the cell set of the new
sentence together with the adjusted count. -/
def buildNbrs (s : AIState) (cell : Cell) (count : ℤ) : Finset Cell × ℤ :=
  (nbrCandidates cell).foldl (neighborStep s cell) (∅, count)

/-- Steps 1 and 2 of `add_knowledge`: record the move and mark the observed cell safe. -/
def observeSteps12 (s : AIState) (cell : Cell) : AIState :=
  AIState.mark_safe { s with moves_made := insert cell s.moves_made } cell

/-- Step 3 of `add_knowledge`: `if neighbors: self.knowledge.append(Sentence(neighbors, count))`. -/
def observeStep3 (s : AIState) (cell : Cell) (count : ℤ) : AIState :=
  let nc := buildNbrs s cell count
  if nc.1 = ∅ then s else { s with knowledge := s.knowledge ++ [⟨nc.1, nc.2⟩] }

/-- `allSafes`: union of `known_safes()` over the whole knowledge list. -/
def allSafesOf (kn : List Sentence) : Finset Cell :=
  kn.foldl (fun acc st => acc ∪ st.known_safes) ∅

/-- `allMines`: union of `known_mines()` over the whole knowledge list. -/
def allMinesOf (kn : List Sentence) : Finset Cell :=
  kn.foldl (fun acc st => acc ∪ st.known_mines) ∅

/-- Aggregate effect of the loop `for safe_cell in allSafes: if safe_cell not in
self.safes: self.mark_safe(safe_cell)` when `S` is the set of newly marked cells:
each such cell enters `safes` and is removed from every sentence, counts unchanged. -/
def markSafesAll (s : AIState) (S : Finset Cell) : AIState :=
  { s with safes := s.safes ∪ S,
           knowledge := s.knowledge.map (fun st => ⟨st.cells \ S, st.count⟩) }

/-- Aggregate effect of the loop `for mine_cell in allMines: if mine_cell not in
self.mines: self.mark_mine(mine_cell)` when `S` is the set of newly marked cells:
each such cell enters `mines` and is removed from every sentence, each sentence's
count dropping by the number of its members removed. -/
def markMinesAll (s : AIState) (S : Finset Cell) : AIState :=
  { s with mines := s.mines ∪ S,
           knowledge := s.knowledge.map
             (fun st => ⟨st.cells \ S, st.count - ((st.cells ∩ S).card : ℤ)⟩) }

/-- Does one pass of step 4 of `add_knowledge` mark any new cell (`updatesDone`)? -/
def propChanged (s : AIState) : Bool :=
  decide (allSafesOf s.knowledge \ s.safes ≠ ∅) ||
  decide (allMinesOf s.knowledge \ s.mines ≠ ∅)

/-- One pass of the step 4 loop of `add_knowledge`: extract every directly
known safe and mine cell from the current sentences and mark the new ones. -/
def propPass (s : AIState) : AIState :=
  let newS := allSafesOf s.knowledge \ s.safes
  let newM := allMinesOf s.knowledge \ s.mines
  markMinesAll (markSafesAll s newS) newM

/-- Total number of unresolved sentence cells; the quantity that every
marking pass of step 4 strictly shrinks. -/
def totalCells (kn : List Sentence) : ℕ :=
  (kn.map (fun st => st.cells.card)).sum

/-- The `while updatesDone` loop of step 4 of `add_knowledge`, with fuel. -/
def propLoopFuel : ℕ → AIState → AIState
  | 0, s => s
  | n + 1, s => if propChanged s then propLoopFuel n (propPass s) else propPass s

/-- Step 4 of `add_knowledge`: run passes until one marks nothing new.  The
fuel is sufficient because each marking pass strictly shrinks `totalCells`. -/
def propLoop (s : AIState) : AIState :=
  propLoopFuel (totalCells s.knowledge + 1) s

/-- The resolvent sentence `Sentence(s2.cells - s1.cells, s2.count - s1.count)`. -/
def resolventOf (s1 s2 : Sentence) : Sentence :=
  ⟨s2.cells \ s1.cells, s2.count - s1.count⟩

/-- One candidate consideration in step 5 of `add_knowledge`: skip equal
sentences, try the subset rule, stage the resolvent unless it is already
staged or already in the knowledge list. -/
def inferStep (kn : List Sentence) (acc : List Sentence) (s1 s2 : Sentence) :
    List Sentence :=
  if s1 = s2 then acc
  else if s1.cells ⊆ s2.cells then
    if resolventOf s1 s2 ∈ acc ∨ resolventOf s1 s2 ∈ kn then acc
    else acc ++ [resolventOf s1 s2]
  else acc

/-- The nested pair scan of step 5 of `add_knowledge`, producing the staged
inference list. -/
def inferencesOf (kn : List Sentence) : List Sentence :=
  kn.foldl (fun acc s1 => kn.foldl (fun acc2 s2 => inferStep kn acc2 s1 s2) acc) []

/-- Step 5 of `add_knowledge`: `self.knowledge.extend(inferences)`. -/
def observeStep5 (s : AIState) : AIState :=
  { s with knowledge := s.knowledge ++ inferencesOf s.knowledge }

/-- `MinesweeperAI.add_knowledge`, the composite of its five steps. -/
def add_knowledge (s : AIState) (cell : Cell) (count : ℤ) : AIState :=
  observeStep5 (propLoop (observeStep3 (observeSteps12 s cell) cell count))

/-- The board enumeration of `make_random_move`:
`for i in range(self.height): for j in range(self.width)`, row major. -/
def gridList (h w : ℤ) : List Cell :=
  (List.range h.toNat).flatMap
    (fun (i : ℕ) => (List.range w.toNat).map (fun (j : ℕ) => (((i : ℤ), (j : ℤ)) : Cell)))

/-- `validMoves = validMoves - self.mines - self.moves_made`, as the list of
eligible cells in enumeration order (Python materializes `list(validMoves)`
before choosing). -/
def validMovesList (s : AIState) : List Cell :=
  (gridList s.height s.width).filter
    (fun c => decide (c ∉ s.mines) && decide (c ∉ s.moves_made))

/-- The eligible set of `make_random_move` as a set. -/
def validMoves (s : AIState) : Finset Cell :=
  (gridCellsDim s.height s.width \ s.mines) \ s.moves_made

/-- `MinesweeperAI.make_random_move` with the random draw supplied as an
oracle `k`: `random.choice` picks position `k % len` of the eligible list,
and `None` is returned when the list is empty. -/
def make_random_move (s : AIState) (k : ℕ) : Option Cell :=
  let l := validMovesList s
  if h : 0 < l.length then some (l.get ⟨k % l.length, Nat.mod_lt _ h⟩) else none

/-- A public operation on the knowledge base. -/
inductive PubOp where
  | observe (cell : Cell) (count : ℤ)
  | callSafe (cell : Cell)
  | callMine (cell : Cell)

/-- Apply one public operation. -/
def applyOp (s : AIState) : PubOp → AIState
  | .observe cell count => add_knowledge s cell count
  | .callSafe cell => s.mark_safe cell
  | .callMine cell => s.mark_mine cell

/-- Run a sequence of `add_knowledge` calls from a fresh knowledge base. -/
def runTrace (h w : ℤ) (calls : List (Cell × ℤ)) : AIState :=
  calls.foldl (fun s c => add_knowledge s c.1 c.2) (initialAI h w)

/-- A single observation is consistent with ground-truth mine set `M` on an
`h × w` board: the observed cell is not a mine and the reported count is the
true number of adjacent mines. -/
def consistentCall (h w : ℤ) (M : Finset Cell) (cell : Cell) (count : ℤ) : Prop :=
  cell ∉ M ∧ count = ((chebNbrsDim h w cell ∩ M).card : ℤ)

/-- Every call of the trace is consistent with ground truth `M`. -/
def consistentTrace (h w : ℤ) (M : Finset Cell) (calls : List (Cell × ℤ)) : Prop :=
  ∀ p ∈ calls, consistentCall h w M p.1 p.2

/-- A sentence is true under ground-truth mine set `M`: exactly `count` of its
cells are mines. -/
def Sentence.holds (M : Finset Cell) (st : Sentence) : Prop :=
  ((st.cells ∩ M).card : ℤ) = st.count

/-- Soundness of a knowledge-base state with respect to ground truth `M`. -/
def sound (M : Finset Cell) (s : AIState) : Prop :=
  (∀ c ∈ s.safes, c ∉ M) ∧ (∀ c ∈ s.mines, c ∈ M) ∧ ∀ st ∈ s.knowledge, st.holds M

/-- Pointwise evolution of the knowledge list: every sentence present now is
still present at the same position later, with a cell set that has only shrunk
(sentences are never removed, reordered, or re-grown). -/
def kbMono (kn kn2 : List Sentence) : Prop :=
  ∀ (i : ℕ) (st : Sentence), kn[i]? = some st →
    ∃ st2 : Sentence, kn2[i]? = some st2 ∧ st2.cells ⊆ st.cells

/-- Monotone evolution of the public state across operations: the three fact
sets only grow and the knowledge list evolves pointwise monotonically. -/
def stepMono (s s2 : AIState) : Prop :=
  s.moves_made ⊆ s2.moves_made ∧ s.safes ⊆ s2.safes ∧ s.mines ⊆ s2.mines ∧
    kbMono s.knowledge s2.knowledge

instance (h w : ℤ) (M : Finset Cell) (cell : Cell) (count : ℤ) :
    Decidable (consistentCall h w M cell count) :=
  inferInstanceAs (Decidable (_ ∧ _))

instance (h w : ℤ) (M : Finset Cell) (calls : List (Cell × ℤ)) :
    Decidable (consistentTrace h w M calls) :=
  inferInstanceAs (Decidable (∀ p ∈ calls, consistentCall h w M p.1 p.2))

/-! ## Basic membership characterizations -/

theorem mem_gridCellsDim {h w : ℤ} {c : Cell} :
    c ∈ gridCellsDim h w ↔ inBdsDim h w c := by
  simp only [gridCellsDim, inBdsDim, Finset.mem_product, Finset.mem_Icc]
  omega

theorem mem_chebNbrsDim {h w : ℤ} {cell c : Cell} :
    c ∈ chebNbrsDim h w cell ↔
      inBdsDim h w c ∧ c ≠ cell ∧ cell.1 - 1 ≤ c.1 ∧ c.1 ≤ cell.1 + 1 ∧
        cell.2 - 1 ≤ c.2 ∧ c.2 ≤ cell.2 + 1 := by
  simp only [chebNbrsDim, Finset.mem_filter, mem_gridCellsDim]

theorem not_mem_chebNbrsDim_self {h w : ℤ} {cell : Cell} :
    cell ∉ chebNbrsDim h w cell := by
  simp [mem_chebNbrsDim]

theorem mem_nbrCandidates {cell c : Cell} :
    c ∈ nbrCandidates cell ↔
      cell.1 - 1 ≤ c.1 ∧ c.1 ≤ cell.1 + 1 ∧ cell.2 - 1 ≤ c.2 ∧ c.2 ≤ cell.2 + 1 := by
  obtain ⟨a, b⟩ := c
  simp only [nbrCandidates, List.mem_cons, List.not_mem_nil, or_false, Prod.mk.injEq]
  omega

theorem nbrCandidates_nodup (cell : Cell) : (nbrCandidates cell).Nodup := by
  simp only [nbrCandidates, List.nodup_cons, List.mem_cons, List.not_mem_nil, or_false,
    List.nodup_nil, and_true, Prod.mk.injEq, not_or, true_and, not_false_eq_true]
  omega

theorem foldl_union_mem (f : Sentence → Finset Cell) (kn : List Sentence)
    (init : Finset Cell) (c : Cell) :
    c ∈ kn.foldl (fun acc st => acc ∪ f st) init ↔ c ∈ init ∨ ∃ st ∈ kn, c ∈ f st := by
  induction kn generalizing init with
  | nil => simp
  | cons hd tl ih =>
    simp only [List.foldl_cons, ih, Finset.mem_union, List.mem_cons]
    constructor
    · rintro (((h | h) | ⟨st, hst, hc⟩))
      · exact Or.inl h
      · exact Or.inr ⟨hd, Or.inl rfl, h⟩
      · exact Or.inr ⟨st, Or.inr hst, hc⟩
    · rintro (h | ⟨st, (rfl | hst), hc⟩)
      · exact Or.inl (Or.inl h)
      · exact Or.inl (Or.inr hc)
      · exact Or.inr ⟨st, hst, hc⟩

theorem mem_allSafesOf {kn : List Sentence} {c : Cell} :
    c ∈ allSafesOf kn ↔ ∃ st ∈ kn, c ∈ st.known_safes := by
  simpa using foldl_union_mem Sentence.known_safes kn ∅ c

theorem mem_allMinesOf {kn : List Sentence} {c : Cell} :
    c ∈ allMinesOf kn ↔ ∃ st ∈ kn, c ∈ st.known_mines := by
  simpa using foldl_union_mem Sentence.known_mines kn ∅ c

theorem Sentence.mem_known_safes {st : Sentence} {c : Cell} :
    c ∈ st.known_safes ↔ st.count = 0 ∧ c ∈ st.cells := by
  unfold Sentence.known_safes
  split <;> simp_all

theorem Sentence.mem_known_mines {st : Sentence} {c : Cell} :
    c ∈ st.known_mines ↔ (st.cells.card : ℤ) = st.count ∧ c ∈ st.cells := by
  unfold Sentence.known_mines
  split <;> simp_all

/-! ## Characterization of the neighbor scan (step 3 of `add_knowledge`) -/

theorem foldl_neighborStep_fst (s : AIState) (cell : Cell) (l : List Cell)
    (acc : Finset Cell × ℤ) :
    (l.foldl (neighborStep s cell) acc).1 =
      acc.1 ∪ (l.filter (fun nb =>
        decide (nb ≠ cell ∧ inBdsDim s.height s.width nb ∧
          nb ∉ s.mines ∧ nb ∉ s.safes))).toFinset := by
  induction l generalizing acc with
  | nil => simp
  | cons hd tl ih =>
    rw [List.foldl_cons, ih, List.filter_cons]
    by_cases h1 : hd = cell
    · simp [neighborStep, h1]
    · by_cases h2 : inBdsDim s.height s.width hd
      · by_cases h3 : hd ∈ s.mines
        · simp [neighborStep, h1, h2, h3]
        · by_cases h4 : hd ∈ s.safes
          · simp [neighborStep, h1, h2, h3, h4]
          · simp [neighborStep, h1, h2, h3, h4, List.toFinset_cons, Finset.insert_union,
              Finset.union_insert]
      · simp [neighborStep, h1, h2]

theorem foldl_neighborStep_snd (s : AIState) (cell : Cell) (l : List Cell)
    (acc : Finset Cell × ℤ) :
    (l.foldl (neighborStep s cell) acc).2 =
      acc.2 - (l.countP (fun nb =>
        decide (nb ≠ cell ∧ inBdsDim s.height s.width nb ∧ nb ∈ s.mines)) : ℤ) := by
  induction l generalizing acc with
  | nil => simp
  | cons hd tl ih =>
    rw [List.foldl_cons, ih, List.countP_cons]
    by_cases h1 : hd = cell
    · simp [neighborStep, h1]
    · by_cases h2 : inBdsDim s.height s.width hd
      · by_cases h3 : hd ∈ s.mines
        · simp [neighborStep, h1, h2, h3]
          ring
        · by_cases h4 : hd ∈ s.safes
          · simp [neighborStep, h1, h2, h3, h4]
          · simp [neighborStep, h1, h2, h3, h4]
      · simp [neighborStep, h1, h2]

theorem buildNbrs_fst (s : AIState) (cell : Cell) (count : ℤ) :
    (buildNbrs s cell count).1 =
      (chebNbrsDim s.height s.width cell \ s.mines) \ s.safes := by
  rw [buildNbrs, foldl_neighborStep_fst]
  ext c
  simp only [Finset.empty_union, List.mem_toFinset, List.mem_filter, decide_eq_true_eq,
    mem_nbrCandidates, Finset.mem_sdiff, mem_chebNbrsDim]
  tauto

theorem buildNbrs_snd (s : AIState) (cell : Cell) (count : ℤ) :
    (buildNbrs s cell count).2 =
      count - ((chebNbrsDim s.height s.width cell ∩ s.mines).card : ℤ) := by
  rw [buildNbrs, foldl_neighborStep_snd]
  have hset : (chebNbrsDim s.height s.width cell ∩ s.mines) =
      ((nbrCandidates cell).filter (fun nb =>
        decide (nb ≠ cell ∧ inBdsDim s.height s.width nb ∧ nb ∈ s.mines))).toFinset := by
    ext c
    simp only [List.mem_toFinset, List.mem_filter, decide_eq_true_eq, mem_nbrCandidates,
      Finset.mem_inter, mem_chebNbrsDim]
    tauto
  rw [hset, List.toFinset_card_of_nodup (List.Nodup.filter _ (nbrCandidates_nodup cell)),
    List.countP_eq_length_filter]

/-! ## Record-update facts: the board dimensions never change -/

theorem height_observeSteps12 (s : AIState) (cell : Cell) :
    (observeSteps12 s cell).height = s.height := rfl

theorem width_observeSteps12 (s : AIState) (cell : Cell) :
    (observeSteps12 s cell).width = s.width := rfl

theorem height_observeStep3 (s : AIState) (cell : Cell) (count : ℤ) :
    (observeStep3 s cell count).height = s.height := by
  simp only [observeStep3]
  split <;> rfl

theorem width_observeStep3 (s : AIState) (cell : Cell) (count : ℤ) :
    (observeStep3 s cell count).width = s.width := by
  simp only [observeStep3]
  split <;> rfl

theorem height_propLoopFuel (n : ℕ) : ∀ s : AIState, (propLoopFuel n s).height = s.height := by
  induction n with
  | zero => intro s; rfl
  | succ n ih =>
    intro s
    rw [propLoopFuel]
    split
    · exact ih (propPass s)
    · rfl

theorem width_propLoopFuel (n : ℕ) : ∀ s : AIState, (propLoopFuel n s).width = s.width := by
  induction n with
  | zero => intro s; rfl
  | succ n ih =>
    intro s
    rw [propLoopFuel]
    split
    · exact ih (propPass s)
    · rfl

theorem height_observeStep5 (s : AIState) : (observeStep5 s).height = s.height := rfl

theorem width_observeStep5 (s : AIState) : (observeStep5 s).width = s.width := rfl

theorem height_add_knowledge (s : AIState) (cell : Cell) (count : ℤ) :
    (add_knowledge s cell count).height = s.height := by
  rw [add_knowledge, height_observeStep5, propLoop, height_propLoopFuel,
    height_observeStep3, height_observeSteps12]

theorem width_add_knowledge (s : AIState) (cell : Cell) (count : ℤ) :
    (add_knowledge s cell count).width = s.width := by
  rw [add_knowledge, width_observeStep5, propLoop, width_propLoopFuel,
    width_observeStep3, width_observeSteps12]

/-! ## Soundness with respect to a fixed ground truth -/

theorem Sentence.holds_safe {M : Finset Cell} {st : Sentence} (h : st.holds M)
    {c : Cell} (hc : c ∈ st.known_safes) : c ∉ M := by
  rw [Sentence.mem_known_safes] at hc
  obtain ⟨hcnt, hcell⟩ := hc
  unfold Sentence.holds at h
  intro hM
  have h0 : (st.cells ∩ M).card = 0 := by omega
  rw [Finset.card_eq_zero] at h0
  have hmem : c ∈ st.cells ∩ M := Finset.mem_inter.mpr ⟨hcell, hM⟩
  rw [h0] at hmem
  exact absurd hmem (Finset.not_mem_empty c)

theorem Sentence.holds_mine {M : Finset Cell} {st : Sentence} (h : st.holds M)
    {c : Cell} (hc : c ∈ st.known_mines) : c ∈ M := by
  rw [Sentence.mem_known_mines] at hc
  obtain ⟨hcnt, hcell⟩ := hc
  unfold Sentence.holds at h
  have hcard : st.cells.card ≤ (st.cells ∩ M).card := by omega
  have heq : st.cells ∩ M = st.cells :=
    Finset.eq_of_subset_of_card_le Finset.inter_subset_left hcard
  rw [← heq] at hcell
  exact (Finset.mem_inter.mp hcell).2

theorem inter_sdiff_of_not_mem {A S M : Finset Cell} (h : ∀ c ∈ S, c ∉ M) :
    (A \ S) ∩ M = A ∩ M := by
  ext x
  simp only [Finset.mem_inter, Finset.mem_sdiff]
  constructor
  · rintro ⟨⟨h1, _⟩, h3⟩
    exact ⟨h1, h3⟩
  · rintro ⟨h1, h3⟩
    exact ⟨⟨h1, fun hs => h x hs h3⟩, h3⟩

theorem card_inter_sdiff_int {A S M : Finset Cell} (hS : S ⊆ M) :
    (((A \ S) ∩ M).card : ℤ) = ((A ∩ M).card : ℤ) - ((A ∩ S).card : ℤ) := by
  have hsub : A ∩ S ⊆ A ∩ M := Finset.inter_subset_inter (Finset.Subset.refl A) hS
  have hset : (A \ S) ∩ M = (A ∩ M) \ (A ∩ S) := by
    ext x
    simp only [Finset.mem_inter, Finset.mem_sdiff, not_and]
    constructor
    · rintro ⟨⟨h1, h2⟩, h3⟩
      exact ⟨⟨h1, h3⟩, fun _ => h2⟩
    · rintro ⟨⟨h1, h3⟩, h2⟩
      exact ⟨⟨h1, fun hs => h2 h1 hs⟩, h3⟩
  rw [hset, Finset.card_sdiff hsub, Nat.cast_sub (Finset.card_le_card hsub)]

theorem sound_markSafesAll {M : Finset Cell} {s : AIState} {S : Finset Cell}
    (hS : ∀ c ∈ S, c ∉ M) (h : sound M s) : sound M (markSafesAll s S) := by
  obtain ⟨hsafe, hmine, hkn⟩ := h
  refine ⟨?_, hmine, ?_⟩
  · intro c hc
    rcases Finset.mem_union.mp hc with h' | h'
    · exact hsafe c h'
    · exact hS c h'
  · intro st hst
    obtain ⟨st0, hst0, rfl⟩ := List.mem_map.mp hst
    unfold Sentence.holds
    simp only
    rw [inter_sdiff_of_not_mem hS]
    exact hkn st0 hst0

theorem sound_markMinesAll {M : Finset Cell} {s : AIState} {S : Finset Cell}
    (hS : ∀ c ∈ S, c ∈ M) (h : sound M s) : sound M (markMinesAll s S) := by
  obtain ⟨hsafe, hmine, hkn⟩ := h
  refine ⟨hsafe, ?_, ?_⟩
  · intro c hc
    rcases Finset.mem_union.mp hc with h' | h'
    · exact hmine c h'
    · exact hS c h'
  · intro st hst
    obtain ⟨st0, hst0, rfl⟩ := List.mem_map.mp hst
    unfold Sentence.holds
    simp only
    rw [card_inter_sdiff_int (fun c hc => hS c hc)]
    have := hkn st0 hst0
    unfold Sentence.holds at this
    omega

theorem allSafesOf_not_mine {M : Finset Cell} {s : AIState} (h : sound M s) :
    ∀ c ∈ allSafesOf s.knowledge, c ∉ M := by
  intro c hc
  obtain ⟨st, hst, hc'⟩ := mem_allSafesOf.mp hc
  exact Sentence.holds_safe (h.2.2 st hst) hc'

theorem allMinesOf_mine {M : Finset Cell} {s : AIState} (h : sound M s) :
    ∀ c ∈ allMinesOf s.knowledge, c ∈ M := by
  intro c hc
  obtain ⟨st, hst, hc'⟩ := mem_allMinesOf.mp hc
  exact Sentence.holds_mine (h.2.2 st hst) hc'

theorem sound_propPass {M : Finset Cell} {s : AIState} (h : sound M s) :
    sound M (propPass s) := by
  unfold propPass
  refine sound_markMinesAll ?_ (sound_markSafesAll ?_ h)
  · intro c hc
    exact allMinesOf_mine h c (Finset.mem_sdiff.mp hc).1
  · intro c hc
    exact allSafesOf_not_mine h c (Finset.mem_sdiff.mp hc).1

theorem sound_propLoopFuel {M : Finset Cell} (n : ℕ) :
    ∀ s : AIState, sound M s → sound M (propLoopFuel n s) := by
  induction n with
  | zero => intro s h; exact h
  | succ n ih =>
    intro s h
    rw [propLoopFuel]
    split
    · exact ih (propPass s) (sound_propPass h)
    · exact sound_propPass h

theorem Sentence.holds_mark_safe {M : Finset Cell} {st : Sentence} {cell : Cell}
    (hM : cell ∉ M) (h : st.holds M) : (st.mark_safe cell).holds M := by
  unfold Sentence.mark_safe
  split
  · unfold Sentence.holds at h ⊢
    simp only
    have : st.cells.erase cell ∩ M = st.cells ∩ M := by
      ext x
      simp only [Finset.mem_inter, Finset.mem_erase]
      constructor
      · rintro ⟨⟨_, h1⟩, h2⟩
        exact ⟨h1, h2⟩
      · rintro ⟨h1, h2⟩
        exact ⟨⟨fun he => hM (he ▸ h2), h1⟩, h2⟩
    rw [this]
    exact h
  · exact h

theorem sound_observeSteps12 {M : Finset Cell} {s : AIState} {cell : Cell}
    (hM : cell ∉ M) (h : sound M s) : sound M (observeSteps12 s cell) := by
  obtain ⟨hsafe, hmine, hkn⟩ := h
  refine ⟨?_, hmine, ?_⟩
  · intro c hc
    rcases Finset.mem_insert.mp hc with rfl | h'
    · exact hM
    · exact hsafe c h'
  · intro st hst
    obtain ⟨st0, hst0, rfl⟩ := List.mem_map.mp hst
    exact Sentence.holds_mark_safe hM (hkn st0 hst0)

theorem sound_observeStep3 {M : Finset Cell} {s : AIState} {cell : Cell} {count : ℤ}
    (h : sound M s)
    (hcount : count = ((chebNbrsDim s.height s.width cell ∩ M).card : ℤ)) :
    sound M (observeStep3 s cell count) := by
  simp only [observeStep3]
  split
  · exact h
  · refine ⟨h.1, h.2.1, ?_⟩
    intro st hst
    rcases List.mem_append.mp hst with h' | h'
    · exact h.2.2 st h'
    · rw [List.mem_singleton] at h'
      subst h'
      unfold Sentence.holds
      simp only
      rw [buildNbrs_fst, buildNbrs_snd]
      rw [inter_sdiff_of_not_mem h.1, card_inter_sdiff_int (fun c hc => h.2.1 c hc), hcount]

theorem holds_resolventOf {M : Finset Cell} {s1 s2 : Sentence}
    (h1 : s1.holds M) (h2 : s2.holds M) (hsub : s1.cells ⊆ s2.cells) :
    (resolventOf s1 s2).holds M := by
  unfold Sentence.holds resolventOf at *
  simp only
  have hsub' : s1.cells ∩ M ⊆ s2.cells ∩ M :=
    Finset.inter_subset_inter hsub (Finset.Subset.refl M)
  have hset : (s2.cells \ s1.cells) ∩ M = (s2.cells ∩ M) \ (s1.cells ∩ M) := by
    ext x
    simp only [Finset.mem_inter, Finset.mem_sdiff, not_and]
    constructor
    · rintro ⟨⟨ha, hb⟩, hc⟩
      exact ⟨⟨ha, hc⟩, fun hs => absurd hs hb⟩
    · rintro ⟨⟨ha, hc⟩, hb⟩
      exact ⟨⟨ha, fun hs => hb hs hc⟩, hc⟩
  rw [hset, Finset.card_sdiff hsub', Nat.cast_sub (Finset.card_le_card hsub')]
  omega

theorem inferStep_holds {M : Finset Cell} {kn acc : List Sentence} {s1 s2 : Sentence}
    (hkn : ∀ x ∈ kn, x.holds M) (hacc : ∀ x ∈ acc, x.holds M)
    (h1 : s1 ∈ kn) (h2 : s2 ∈ kn) :
    ∀ x ∈ inferStep kn acc s1 s2, x.holds M := by
  unfold inferStep
  split_ifs with he hsub hmem
  · exact hacc
  · exact hacc
  · intro x hx
    rcases List.mem_append.mp hx with h' | h'
    · exact hacc x h'
    · rw [List.mem_singleton] at h'
      subst h'
      exact holds_resolventOf (hkn s1 h1) (hkn s2 h2) hsub
  · exact hacc

theorem foldl_inner_holds {M : Finset Cell} {kn : List Sentence} {s1 : Sentence}
    (hkn : ∀ x ∈ kn, x.holds M) (h1 : s1 ∈ kn) :
    ∀ l : List Sentence, (∀ x ∈ l, x ∈ kn) →
      ∀ acc : List Sentence, (∀ x ∈ acc, x.holds M) →
        ∀ x ∈ l.foldl (fun acc2 s2 => inferStep kn acc2 s1 s2) acc, x.holds M := by
  intro l
  induction l with
  | nil => intro _ acc hacc; exact hacc
  | cons hd tl ih =>
    intro hl acc hacc
    rw [List.foldl_cons]
    exact ih (fun x hx => hl x (List.mem_cons_of_mem hd hx))
      (inferStep kn acc s1 hd)
      (inferStep_holds hkn hacc h1 (hl hd (List.mem_cons_self hd tl)))

theorem foldl_outer_holds {M : Finset Cell} {kn : List Sentence}
    (hkn : ∀ x ∈ kn, x.holds M) :
    ∀ l : List Sentence, (∀ x ∈ l, x ∈ kn) →
      ∀ acc : List Sentence, (∀ x ∈ acc, x.holds M) →
        ∀ x ∈ l.foldl (fun acc s1 => kn.foldl (fun acc2 s2 => inferStep kn acc2 s1 s2) acc) acc,
          x.holds M := by
  intro l
  induction l with
  | nil => intro _ acc hacc; exact hacc
  | cons hd tl ih =>
    intro hl acc hacc
    rw [List.foldl_cons]
    exact ih (fun x hx => hl x (List.mem_cons_of_mem hd hx)) _
      (foldl_inner_holds hkn (hl hd (List.mem_cons_self hd tl)) kn (fun x hx => hx) acc hacc)

theorem inferencesOf_holds {M : Finset Cell} {kn : List Sentence}
    (hkn : ∀ x ∈ kn, x.holds M) : ∀ x ∈ inferencesOf kn, x.holds M := by
  intro x hx
  exact foldl_outer_holds hkn kn (fun y hy => hy) [] (by simp) x hx

theorem sound_observeStep5 {M : Finset Cell} {s : AIState} (h : sound M s) :
    sound M (observeStep5 s) := by
  refine ⟨h.1, h.2.1, ?_⟩
  intro st hst
  rcases List.mem_append.mp hst with h' | h'
  · exact h.2.2 st h'
  · exact inferencesOf_holds h.2.2 st h'

theorem sound_add_knowledge {M : Finset Cell} {s : AIState} {cell : Cell} {count : ℤ}
    (h : sound M s) (hc : consistentCall s.height s.width M cell count) :
    sound M (add_knowledge s cell count) := by
  rw [add_knowledge, propLoop]
  apply sound_observeStep5
  apply sound_propLoopFuel
  apply sound_observeStep3 (sound_observeSteps12 hc.1 h)
  rw [height_observeSteps12, width_observeSteps12]
  exact hc.2

theorem sound_initialAI (M : Finset Cell) (h w : ℤ) : sound M (initialAI h w) := by
  refine ⟨?_, ?_, ?_⟩ <;> intro x hx <;> simp [initialAI] at hx

theorem sound_foldl_trace {M : Finset Cell} {h w : ℤ} :
    ∀ (calls : List (Cell × ℤ)) (s : AIState), sound M s →
      s.height = h → s.width = w → consistentTrace h w M calls →
      sound M (calls.foldl (fun t c => add_knowledge t c.1 c.2) s) := by
  intro calls
  induction calls with
  | nil => intro s hs _ _ _; exact hs
  | cons hd tl ih =>
    intro s hs hh hw htr
    rw [List.foldl_cons]
    refine ih (add_knowledge s hd.1 hd.2) ?_ ?_ ?_ ?_
    · apply sound_add_knowledge hs
      rw [hh, hw]
      exact htr hd (List.mem_cons_self hd tl)
    · rw [height_add_knowledge, hh]
    · rw [width_add_knowledge, hw]
    · intro p hp
      exact htr p (List.mem_cons_of_mem hd hp)

theorem sound_runTrace {M : Finset Cell} {h w : ℤ} {calls : List (Cell × ℤ)}
    (htr : consistentTrace h w M calls) : sound M (runTrace h w calls) :=
  sound_foldl_trace calls (initialAI h w) (sound_initialAI M h w) rfl rfl htr

/-! ## The propagation loop quiesces: each marking pass strictly shrinks
`totalCells`, and the fuel given to `propLoopFuel` is enough to reach a pass
that marks nothing. -/

theorem totalCells_map_le (kn : List Sentence) (f : Sentence → Sentence)
    (hf : ∀ st, (f st).cells.card ≤ st.cells.card) :
    totalCells (kn.map f) ≤ totalCells kn := by
  induction kn with
  | nil => exact le_refl _
  | cons hd tl ih =>
    simp only [totalCells, List.map_cons, List.sum_cons] at *
    exact Nat.add_le_add (hf hd) ih

theorem totalCells_map_lt (kn : List Sentence) (f : Sentence → Sentence)
    (hf : ∀ st, (f st).cells.card ≤ st.cells.card)
    (hex : ∃ st ∈ kn, (f st).cells.card < st.cells.card) :
    totalCells (kn.map f) < totalCells kn := by
  induction kn with
  | nil => simp at hex
  | cons hd tl ih =>
    simp only [totalCells, List.map_cons, List.sum_cons] at *
    obtain ⟨st, hmem, hlt⟩ := hex
    rcases List.mem_cons.mp hmem with rfl | hst
    · exact Nat.add_lt_add_of_lt_of_le hlt (totalCells_map_le tl f hf)
    · exact Nat.add_lt_add_of_le_of_lt (hf hd) (ih ⟨st, hst, hlt⟩)

theorem sdiff_card_lt_of_mem {A S : Finset Cell} {c : Cell} (hcA : c ∈ A) (hcS : c ∈ S) :
    (A \ S).card < A.card := by
  apply Finset.card_lt_card
  rw [Finset.ssubset_iff_of_subset (Finset.sdiff_subset)]
  exact ⟨c, hcA, by simp [hcS]⟩

theorem propPass_totalCells_lt {s : AIState} (h : propChanged s = true) :
    totalCells (propPass s).knowledge < totalCells s.knowledge := by
  simp only [propChanged, Bool.or_eq_true, decide_eq_true_eq] at h
  have hle1 : ∀ S : Finset Cell, ∀ st : Sentence,
      ((⟨st.cells \ S, st.count⟩ : Sentence)).cells.card ≤ st.cells.card :=
    fun S st => Finset.card_le_card Finset.sdiff_subset
  have hle2 : ∀ S : Finset Cell, ∀ st : Sentence,
      ((⟨st.cells \ S, st.count - ((st.cells ∩ S).card : ℤ)⟩ : Sentence)).cells.card ≤
        st.cells.card :=
    fun S st => Finset.card_le_card Finset.sdiff_subset
  rcases h with h | h
  · obtain ⟨c, hc⟩ := Finset.nonempty_iff_ne_empty.mpr h
    have hcS := (Finset.mem_sdiff.mp hc).1
    obtain ⟨st, hst, hcst⟩ := mem_allSafesOf.mp hcS
    have hcc := (Sentence.mem_known_safes.mp hcst).2
    refine lt_of_le_of_lt (totalCells_map_le _ _ (hle2 _)) ?_
    exact totalCells_map_lt _ _ (hle1 _) ⟨st, hst, sdiff_card_lt_of_mem hcc hc⟩
  · by_cases hS : allSafesOf s.knowledge \ s.safes = ∅
    · obtain ⟨c, hc⟩ := Finset.nonempty_iff_ne_empty.mpr h
      have hcS := (Finset.mem_sdiff.mp hc).1
      obtain ⟨st, hst, hcst⟩ := mem_allMinesOf.mp hcS
      have hcc := (Sentence.mem_known_mines.mp hcst).2
      have hid : s.knowledge.map
          (fun st => (⟨st.cells \ (allSafesOf s.knowledge \ s.safes), st.count⟩ : Sentence)) =
          s.knowledge := by
        rw [hS]
        have : (fun st : Sentence => (⟨st.cells \ ∅, st.count⟩ : Sentence)) = id := by
          funext st
          rw [Finset.sdiff_empty]
          rfl
        rw [this, List.map_id]
      show totalCells (List.map _ (List.map _ s.knowledge)) < _
      rw [hid]
      exact totalCells_map_lt _ _ (hle2 _) ⟨st, hst, sdiff_card_lt_of_mem hcc hc⟩
    · obtain ⟨c, hc⟩ := Finset.nonempty_iff_ne_empty.mpr hS
      have hcS := (Finset.mem_sdiff.mp hc).1
      obtain ⟨st, hst, hcst⟩ := mem_allSafesOf.mp hcS
      have hcc := (Sentence.mem_known_safes.mp hcst).2
      refine lt_of_le_of_lt (totalCells_map_le _ _ (hle2 _)) ?_
      exact totalCells_map_lt _ _ (hle1 _) ⟨st, hst, sdiff_card_lt_of_mem hcc hc⟩

theorem propPass_eq_self {s : AIState} (h : propChanged s = false) : propPass s = s := by
  simp only [propChanged, Bool.or_eq_false_iff, decide_eq_false_iff_not, not_not] at h
  obtain ⟨hS, hM⟩ := h
  show markMinesAll (markSafesAll s _) _ = s
  rw [hS, hM]
  unfold markSafesAll markMinesAll
  have e1 : (fun st : Sentence => (⟨st.cells \ ∅, st.count⟩ : Sentence)) = id := by
    funext st
    rw [Finset.sdiff_empty]
    rfl
  have e2 : (fun st : Sentence =>
      (⟨st.cells \ ∅, st.count - ((st.cells ∩ ∅).card : ℤ)⟩ : Sentence)) = id := by
    funext st
    rw [Finset.sdiff_empty, Finset.inter_empty, Finset.card_empty]
    simp only [Nat.cast_zero, sub_zero]
    rfl
  simp only [e1, e2, List.map_id, Finset.union_empty]

theorem propChanged_propLoopFuel :
    ∀ (n : ℕ) (s : AIState), totalCells s.knowledge < n →
      propChanged (propLoopFuel n s) = false := by
  intro n
  induction n with
  | zero => intro s h; omega
  | succ n ih =>
    intro s h
    rw [propLoopFuel]
    by_cases hc : propChanged s
    · rw [if_pos hc]
      have h1 := propPass_totalCells_lt hc
      exact ih (propPass s) (by omega)
    · rw [if_neg hc]
      rw [propPass_eq_self (Bool.not_eq_true _ ▸ hc)]
      exact Bool.not_eq_true _ ▸ hc

theorem propChanged_propLoop (s : AIState) : propChanged (propLoop s) = false :=
  propChanged_propLoopFuel _ s (Nat.lt_succ_self _)

/-! ## Characterization of the resolution pass (step 5 of `add_knowledge`) -/

theorem mem_inferStep {kn acc : List Sentence} {s1 s2 x : Sentence}
    (hx : x ∈ inferStep kn acc s1 s2) :
    x ∈ acc ∨ (s1 ≠ s2 ∧ s1.cells ⊆ s2.cells ∧ x = resolventOf s1 s2 ∧ x ∉ kn) := by
  unfold inferStep at hx
  split_ifs at hx with he hsub hmem
  · exact Or.inl hx
  · exact Or.inl hx
  · rcases List.mem_append.mp hx with h | h
    · exact Or.inl h
    · rw [List.mem_singleton] at h
      subst h
      push_neg at hmem
      exact Or.inr ⟨he, hsub, rfl, hmem.2⟩
  · exact Or.inl hx

theorem subset_inferStep {kn acc : List Sentence} {s1 s2 x : Sentence}
    (hx : x ∈ acc) : x ∈ inferStep kn acc s1 s2 := by
  unfold inferStep
  split_ifs
  · exact hx
  · exact hx
  · exact List.mem_append_left _ hx
  · exact hx

theorem subset_foldl_inner {kn : List Sentence} {s1 : Sentence} :
    ∀ (l acc : List Sentence) (x : Sentence), x ∈ acc →
      x ∈ l.foldl (fun acc2 s2 => inferStep kn acc2 s1 s2) acc := by
  intro l
  induction l with
  | nil => intro acc x hx; exact hx
  | cons hd tl ih =>
    intro acc x hx
    rw [List.foldl_cons]
    exact ih _ x (subset_inferStep hx)

theorem mem_foldl_inner {kn : List Sentence} {s1 : Sentence} :
    ∀ (l acc : List Sentence) (x : Sentence),
      x ∈ l.foldl (fun acc2 s2 => inferStep kn acc2 s1 s2) acc →
      x ∈ acc ∨ ∃ s2 ∈ l, s1 ≠ s2 ∧ s1.cells ⊆ s2.cells ∧ x = resolventOf s1 s2 ∧ x ∉ kn := by
  intro l
  induction l with
  | nil => intro acc x hx; exact Or.inl hx
  | cons hd tl ih =>
    intro acc x hx
    rw [List.foldl_cons] at hx
    rcases ih _ x hx with h | ⟨s2, hs2, rest⟩
    · rcases mem_inferStep h with h' | ⟨hne, hsub, hx', hnk⟩
      · exact Or.inl h'
      · exact Or.inr ⟨hd, List.mem_cons_self hd tl, hne, hsub, hx', hnk⟩
    · exact Or.inr ⟨s2, List.mem_cons_of_mem hd hs2, rest⟩

theorem resolvent_mem_foldl_inner {kn : List Sentence} {s1 s2 : Sentence}
    (hne : s1 ≠ s2) (hsub : s1.cells ⊆ s2.cells) (hnk : resolventOf s1 s2 ∉ kn) :
    ∀ (l acc : List Sentence), s2 ∈ l →
      resolventOf s1 s2 ∈ l.foldl (fun acc2 t => inferStep kn acc2 s1 t) acc := by
  intro l
  induction l with
  | nil => intro acc h; exact absurd h (List.not_mem_nil s2)
  | cons hd tl ih =>
    intro acc hmem
    rw [List.foldl_cons]
    rcases List.mem_cons.mp hmem with rfl | h
    · apply subset_foldl_inner
      unfold inferStep
      rw [if_neg hne, if_pos hsub]
      by_cases hm : resolventOf s1 s2 ∈ acc ∨ resolventOf s1 s2 ∈ kn
      · rw [if_pos hm]
        rcases hm with h' | h'
        · exact h'
        · exact absurd h' hnk
      · rw [if_neg hm]
        exact List.mem_append_right _ (List.mem_singleton_self _)
    · exact ih _ h

theorem subset_foldl_outer {kn : List Sentence} :
    ∀ (l acc : List Sentence) (x : Sentence), x ∈ acc →
      x ∈ l.foldl (fun acc s1 => kn.foldl (fun acc2 s2 => inferStep kn acc2 s1 s2) acc) acc := by
  intro l
  induction l with
  | nil => intro acc x hx; exact hx
  | cons hd tl ih =>
    intro acc x hx
    rw [List.foldl_cons]
    exact ih _ x (subset_foldl_inner kn acc x hx)

theorem mem_foldl_outer {kn : List Sentence} :
    ∀ (l acc : List Sentence) (x : Sentence),
      x ∈ l.foldl (fun acc s1 => kn.foldl (fun acc2 s2 => inferStep kn acc2 s1 s2) acc) acc →
      x ∈ acc ∨ ∃ s1 ∈ l, ∃ s2 ∈ kn,
        s1 ≠ s2 ∧ s1.cells ⊆ s2.cells ∧ x = resolventOf s1 s2 ∧ x ∉ kn := by
  intro l
  induction l with
  | nil => intro acc x hx; exact Or.inl hx
  | cons hd tl ih =>
    intro acc x hx
    rw [List.foldl_cons] at hx
    rcases ih _ x hx with h | ⟨s1, hs1, s2, hs2, rest⟩
    · rcases mem_foldl_inner kn _ x h with h' | ⟨s2, hs2, rest⟩
      · exact Or.inl h'
      · exact Or.inr ⟨hd, List.mem_cons_self hd tl, s2, hs2, rest⟩
    · exact Or.inr ⟨s1, List.mem_cons_of_mem hd hs1, s2, hs2, rest⟩

theorem resolvent_mem_foldl_outer {kn : List Sentence} {s1 s2 : Sentence}
    (hne : s1 ≠ s2) (hsub : s1.cells ⊆ s2.cells) (hnk : resolventOf s1 s2 ∉ kn)
    (hs2 : s2 ∈ kn) :
    ∀ (l acc : List Sentence), s1 ∈ l →
      resolventOf s1 s2 ∈
        l.foldl (fun acc t => kn.foldl (fun acc2 u => inferStep kn acc2 t u) acc) acc := by
  intro l
  induction l with
  | nil => intro acc h; exact absurd h (List.not_mem_nil s1)
  | cons hd tl ih =>
    intro acc hmem
    rw [List.foldl_cons]
    rcases List.mem_cons.mp hmem with rfl | h
    · exact subset_foldl_outer tl _ _
        (resolvent_mem_foldl_inner hne hsub hnk kn acc hs2)
    · exact ih _ h

theorem mem_inferencesOf {kn : List Sentence} {x : Sentence} :
    x ∈ inferencesOf kn ↔
      x ∉ kn ∧ ∃ s1 ∈ kn, ∃ s2 ∈ kn,
        s1 ≠ s2 ∧ s1.cells ⊆ s2.cells ∧ x = resolventOf s1 s2 := by
  constructor
  · intro hx
    rcases mem_foldl_outer kn [] x hx with h | ⟨s1, h1, s2, h2, hne, hsub, hx', hnk⟩
    · exact absurd h (List.not_mem_nil x)
    · exact ⟨hnk, s1, h1, s2, h2, hne, hsub, hx'⟩
  · rintro ⟨hnk, s1, h1, s2, h2, hne, hsub, rfl⟩
    exact resolvent_mem_foldl_outer hne hsub hnk h2 kn [] h1

theorem nodup_inferStep {kn acc : List Sentence} {s1 s2 : Sentence}
    (h : acc.Nodup) : (inferStep kn acc s1 s2).Nodup := by
  unfold inferStep
  split_ifs with he hsub hmem
  · exact h
  · exact h
  · push_neg at hmem
    rw [List.nodup_append]
    refine ⟨h, List.nodup_singleton _, ?_⟩
    intro a ha hb
    rw [List.mem_singleton] at hb
    subst hb
    exact hmem.1 ha
  · exact h

theorem nodup_foldl_inner {kn : List Sentence} {s1 : Sentence} :
    ∀ (l acc : List Sentence), acc.Nodup →
      (l.foldl (fun acc2 s2 => inferStep kn acc2 s1 s2) acc).Nodup := by
  intro l
  induction l with
  | nil => intro acc h; exact h
  | cons hd tl ih =>
    intro acc h
    rw [List.foldl_cons]
    exact ih _ (nodup_inferStep h)

theorem nodup_foldl_outer {kn : List Sentence} :
    ∀ (l acc : List Sentence), acc.Nodup →
      (l.foldl (fun acc s1 => kn.foldl (fun acc2 s2 => inferStep kn acc2 s1 s2) acc) acc).Nodup := by
  intro l
  induction l with
  | nil => intro acc h; exact h
  | cons hd tl ih =>
    intro acc h
    rw [List.foldl_cons]
    exact ih _ (nodup_foldl_inner kn _ h)

theorem nodup_inferencesOf (kn : List Sentence) : (inferencesOf kn).Nodup :=
  nodup_foldl_outer kn [] List.nodup_nil

/-! ## Monotonicity of the public operations -/

theorem kbMono_refl (kn : List Sentence) : kbMono kn kn :=
  fun _ st h => ⟨st, h, Finset.Subset.refl _⟩

theorem kbMono_trans {k1 k2 k3 : List Sentence} (h1 : kbMono k1 k2) (h2 : kbMono k2 k3) :
    kbMono k1 k3 := by
  intro i st h
  obtain ⟨st2, hst2, hsub2⟩ := h1 i st h
  obtain ⟨st3, hst3, hsub3⟩ := h2 i st2 hst2
  exact ⟨st3, hst3, Finset.Subset.trans hsub3 hsub2⟩

theorem kbMono_map {kn : List Sentence} {f : Sentence → Sentence}
    (hf : ∀ st, (f st).cells ⊆ st.cells) : kbMono kn (kn.map f) := by
  intro i st h
  refine ⟨f st, ?_, hf st⟩
  rw [List.getElem?_map, h]
  rfl

theorem kbMono_append (kn t : List Sentence) : kbMono kn (kn ++ t) := by
  intro i st h
  have hi : i < kn.length := by
    by_contra hge
    rw [List.getElem?_eq_none (by omega)] at h
    exact Option.noConfusion h
  refine ⟨st, ?_, Finset.Subset.refl _⟩
  rw [List.getElem?_append_left hi]
  exact h

theorem kbMono_length_le {k1 k2 : List Sentence} (h : kbMono k1 k2) :
    k1.length ≤ k2.length := by
  by_contra hlt
  push_neg at hlt
  obtain ⟨st, hst⟩ : ∃ st, k1[k2.length]? = some st := by
    rw [List.getElem?_eq_getElem hlt]
    exact ⟨_, rfl⟩
  obtain ⟨st2, h2, _⟩ := h _ _ hst
  rw [List.getElem?_eq_none (le_refl _)] at h2
  exact Option.noConfusion h2

theorem stepMono_refl (s : AIState) : stepMono s s :=
  ⟨Finset.Subset.refl _, Finset.Subset.refl _, Finset.Subset.refl _, kbMono_refl _⟩

theorem stepMono_trans {s1 s2 s3 : AIState} (h1 : stepMono s1 s2) (h2 : stepMono s2 s3) :
    stepMono s1 s3 :=
  ⟨Finset.Subset.trans h1.1 h2.1, Finset.Subset.trans h1.2.1 h2.2.1,
   Finset.Subset.trans h1.2.2.1 h2.2.2.1, kbMono_trans h1.2.2.2 h2.2.2.2⟩

theorem Sentence.mark_safe_cells_subset (st : Sentence) (cell : Cell) :
    (st.mark_safe cell).cells ⊆ st.cells := by
  unfold Sentence.mark_safe
  split
  · exact Finset.erase_subset cell st.cells
  · exact Finset.Subset.refl _

theorem Sentence.mark_mine_cells_subset (st : Sentence) (cell : Cell) :
    (st.mark_mine cell).cells ⊆ st.cells := by
  unfold Sentence.mark_mine
  split
  · exact Finset.erase_subset cell st.cells
  · exact Finset.Subset.refl _

theorem stepMono_mark_safe (s : AIState) (cell : Cell) : stepMono s (s.mark_safe cell) :=
  ⟨Finset.Subset.refl _, Finset.subset_insert cell s.safes, Finset.Subset.refl _,
   kbMono_map (fun st => Sentence.mark_safe_cells_subset st cell)⟩

theorem stepMono_mark_mine (s : AIState) (cell : Cell) : stepMono s (s.mark_mine cell) :=
  ⟨Finset.Subset.refl _, Finset.Subset.refl _, Finset.subset_insert cell s.mines,
   kbMono_map (fun st => Sentence.mark_mine_cells_subset st cell)⟩

theorem stepMono_markSafesAll (s : AIState) (S : Finset Cell) :
    stepMono s (markSafesAll s S) :=
  ⟨Finset.Subset.refl _, Finset.subset_union_left, Finset.Subset.refl _,
   kbMono_map (fun _ => Finset.sdiff_subset)⟩

theorem stepMono_markMinesAll (s : AIState) (S : Finset Cell) :
    stepMono s (markMinesAll s S) :=
  ⟨Finset.Subset.refl _, Finset.Subset.refl _, Finset.subset_union_left,
   kbMono_map (fun _ => Finset.sdiff_subset)⟩

theorem stepMono_propPass (s : AIState) : stepMono s (propPass s) :=
  stepMono_trans (stepMono_markSafesAll s _) (stepMono_markMinesAll _ _)

theorem stepMono_propLoopFuel (n : ℕ) : ∀ s : AIState, stepMono s (propLoopFuel n s) := by
  induction n with
  | zero => intro s; exact stepMono_refl s
  | succ n ih =>
    intro s
    rw [propLoopFuel]
    split
    · exact stepMono_trans (stepMono_propPass s) (ih (propPass s))
    · exact stepMono_propPass s

theorem stepMono_observeSteps12 (s : AIState) (cell : Cell) :
    stepMono s (observeSteps12 s cell) := by
  have h1 : stepMono s { s with moves_made := insert cell s.moves_made } :=
    ⟨Finset.subset_insert cell s.moves_made, Finset.Subset.refl _,
      Finset.Subset.refl _, kbMono_refl _⟩
  exact stepMono_trans h1 (stepMono_mark_safe _ cell)

theorem stepMono_observeStep3 (s : AIState) (cell : Cell) (count : ℤ) :
    stepMono s (observeStep3 s cell count) := by
  simp only [observeStep3]
  split
  · exact stepMono_refl s
  · exact ⟨Finset.Subset.refl _, Finset.Subset.refl _, Finset.Subset.refl _,
      kbMono_append _ _⟩

theorem stepMono_observeStep5 (s : AIState) : stepMono s (observeStep5 s) :=
  ⟨Finset.Subset.refl _, Finset.Subset.refl _, Finset.Subset.refl _, kbMono_append _ _⟩

theorem stepMono_add_knowledge (s : AIState) (cell : Cell) (count : ℤ) :
    stepMono s (add_knowledge s cell count) := by
  rw [add_knowledge, propLoop]
  exact stepMono_trans (stepMono_observeSteps12 s cell)
    (stepMono_trans (stepMono_observeStep3 _ cell count)
      (stepMono_trans (stepMono_propLoopFuel _ _) (stepMono_observeStep5 _)))

theorem stepMono_applyOp (s : AIState) (op : PubOp) : stepMono s (applyOp s op) := by
  cases op with
  | observe cell count => exact stepMono_add_knowledge s cell count
  | callSafe cell => exact stepMono_mark_safe s cell
  | callMine cell => exact stepMono_mark_mine s cell

theorem stepMono_foldl_ops :
    ∀ (ops : List PubOp) (s : AIState), stepMono s (ops.foldl applyOp s) := by
  intro ops
  induction ops with
  | nil => intro s; exact stepMono_refl s
  | cons hd tl ih =>
    intro s
    rw [List.foldl_cons]
    exact stepMono_trans (stepMono_applyOp s hd) (ih (applyOp s hd))

/-! ## The random-move query -/

theorem mem_gridList {h w : ℤ} {c : Cell} : c ∈ gridList h w ↔ inBdsDim h w c := by
  simp only [gridList, List.mem_flatMap, List.mem_map, List.mem_range]
  unfold inBdsDim
  constructor
  · rintro ⟨i, hi, j, hj, rfl⟩
    dsimp only
    omega
  · rintro ⟨h1, h2, h3, h4⟩
    refine ⟨c.1.toNat, by omega, c.2.toNat, by omega, ?_⟩
    rw [Int.toNat_of_nonneg h1, Int.toNat_of_nonneg h3]

theorem gridList_nodup (h w : ℤ) : (gridList h w).Nodup := by
  rw [gridList, List.nodup_flatMap]
  constructor
  · intro i _
    refine List.Nodup.map ?_ (List.nodup_range _)
    intro a b hab
    have h2 : (a : ℤ) = (b : ℤ) := congrArg Prod.snd hab
    exact_mod_cast h2
  · refine List.Pairwise.imp ?_ (List.nodup_range _)
    intro a b hab
    intro x hxa hxb
    simp only [List.mem_map, List.mem_range] at hxa hxb
    obtain ⟨j1, _, rfl⟩ := hxa
    obtain ⟨j2, _, heq⟩ := hxb
    have h2 : (b : ℤ) = (a : ℤ) := congrArg Prod.fst heq
    exact hab (by exact_mod_cast h2.symm)

theorem mem_validMovesList {s : AIState} {c : Cell} :
    c ∈ validMovesList s ↔
      inBdsDim s.height s.width c ∧ c ∉ s.mines ∧ c ∉ s.moves_made := by
  simp [validMovesList, List.mem_filter, mem_gridList]

theorem validMovesList_nodup (s : AIState) : (validMovesList s).Nodup :=
  List.Nodup.filter _ (gridList_nodup s.height s.width)

theorem validMovesList_toFinset (s : AIState) :
    (validMovesList s).toFinset = validMoves s := by
  ext c
  simp only [List.mem_toFinset, mem_validMovesList, validMoves, Finset.mem_sdiff,
    mem_gridCellsDim]
  tauto

theorem length_validMovesList (s : AIState) :
    (validMovesList s).length = (validMoves s).card := by
  rw [← validMovesList_toFinset,
    List.toFinset_card_of_nodup (validMovesList_nodup s)]

theorem make_random_move_none {s : AIState} (hk : validMoves s = ∅) (k : ℕ) :
    make_random_move s k = none := by
  simp only [make_random_move]
  rw [dif_neg]
  have : (validMoves s).card = 0 := by rw [hk]; exact Finset.card_empty
  rw [length_validMovesList, this]
  omega

theorem make_random_move_some {s : AIState} (hk : validMoves s ≠ ∅) (k : ℕ) :
    ∃ c, make_random_move s k = some c := by
  simp only [make_random_move]
  rw [dif_pos]
  · exact ⟨_, rfl⟩
  · rw [length_validMovesList]
    have := Finset.card_pos.mpr (Finset.nonempty_iff_ne_empty.mpr hk)
    omega

theorem make_random_move_mem {s : AIState} {k : ℕ} {c : Cell}
    (h : make_random_move s k = some c) : c ∈ validMoves s := by
  simp only [make_random_move] at h
  split at h
  · rw [Option.some.injEq] at h
    subst h
    rw [← validMovesList_toFinset, List.mem_toFinset]
    exact List.get_mem _ _ _
  · exact Option.noConfusion h

theorem make_random_move_uniform {s : AIState} {c : Cell} (hc : c ∈ validMoves s) :
    ((Finset.range (validMoves s).card).filter
      (fun k => make_random_move s k = some c)).card = 1 := by
  have hnd := validMovesList_nodup s
  have hmem : c ∈ validMovesList s := by
    rw [← List.mem_toFinset, validMovesList_toFinset]
    exact hc
  obtain ⟨⟨i, hi⟩, hget⟩ := List.mem_iff_get.mp hmem
  have hcard : (validMoves s).card = (validMovesList s).length :=
    (length_validMovesList s).symm
  rw [hcard]
  have hset : (Finset.range (validMovesList s).length).filter
      (fun k => make_random_move s k = some c) = {i} := by
    ext k
    simp only [Finset.mem_filter, Finset.mem_range, Finset.mem_singleton]
    constructor
    · rintro ⟨hk, hmk⟩
      simp only [make_random_move] at hmk
      rw [dif_pos (by omega)] at hmk
      rw [Option.some.injEq] at hmk
      have hkk : k % (validMovesList s).length = k := Nat.mod_eq_of_lt hk
      have hij : ((⟨k % (validMovesList s).length, Nat.mod_lt _ (by omega)⟩ :
          Fin (validMovesList s).length)) = ⟨i, hi⟩ := by
        rw [← List.Nodup.get_inj_iff hnd]
        rw [hmk, hget]
      have := congrArg Fin.val hij
      simpa [hkk] using this
    · rintro rfl
      refine ⟨hi, ?_⟩
      simp only [make_random_move]
      rw [dif_pos (by omega)]
      have hfin : ((⟨k % (validMovesList s).length, Nat.mod_lt _ (by omega)⟩ :
          Fin (validMovesList s).length)) = ⟨k, hi⟩ := Fin.ext (Nat.mod_eq_of_lt hi)
      rw [hfin, hget]
  rw [hset, Finset.card_singleton]

/-! ## Fully resolved sentences are inert -/

theorem known_safes_trivial : (Sentence.known_safes ⟨∅, 0⟩) = ∅ := by
  simp [Sentence.known_safes]

theorem known_mines_trivial : (Sentence.known_mines ⟨∅, 0⟩) = ∅ := by
  simp [Sentence.known_mines]

theorem allSafesOf_append_trivial (kn : List Sentence) :
    allSafesOf (kn ++ [⟨∅, 0⟩]) = allSafesOf kn := by
  unfold allSafesOf
  rw [List.foldl_append]
  simp [Sentence.known_safes]

theorem allMinesOf_append_trivial (kn : List Sentence) :
    allMinesOf (kn ++ [⟨∅, 0⟩]) = allMinesOf kn := by
  unfold allMinesOf
  rw [List.foldl_append]
  simp [Sentence.known_mines]

/-! ## Small set helper used by the step 3 characterizations -/

theorem sdiff_insert_not_mem {A B : Finset Cell} {x : Cell} (hx : x ∉ A) :
    A \ insert x B = A \ B := by
  ext a
  simp only [Finset.mem_sdiff, Finset.mem_insert, not_or]
  constructor
  · rintro ⟨ha, _, hb⟩
    exact ⟨ha, hb⟩
  · rintro ⟨ha, hb⟩
    exact ⟨ha, fun he => hx (he ▸ ha), hb⟩

theorem not_mem_cheb_sdiff {s : AIState} {cell : Cell} :
    cell ∉ chebNbrsDim s.height s.width cell \ s.mines := by
  intro h
  exact not_mem_chebNbrsDim_self (Finset.mem_sdiff.mp h).1

theorem buildNbrs_observe_fst (s : AIState) (cell : Cell) (count : ℤ) :
    (buildNbrs (observeSteps12 s cell) cell count).1 =
      (chebNbrsDim s.height s.width cell \ s.mines) \ s.safes := by
  rw [buildNbrs_fst]
  show (chebNbrsDim s.height s.width cell \ s.mines) \ insert cell s.safes = _
  rw [sdiff_insert_not_mem not_mem_cheb_sdiff]

theorem buildNbrs_observe_snd (s : AIState) (cell : Cell) (count : ℤ) :
    (buildNbrs (observeSteps12 s cell) cell count).2 =
      count - ((chebNbrsDim s.height s.width cell ∩ s.mines).card : ℤ) :=
  buildNbrs_snd (observeSteps12 s cell) cell count

/-! ## The claims -/

/-- C1.  Soundness and disjointness: after any sequence of `add_knowledge`
calls consistent with a fixed ground-truth mine set `M`, no cell is both in
`safes` and in `mines`, every cell in `mines` is a true mine, and every cell
in `safes` is truly not a mine. -/
theorem c1_soundness_and_disjointness (h w : ℤ) (M : Finset Cell)
    (calls : List (Cell × ℤ)) (hc : consistentTrace h w M calls) :
    (runTrace h w calls).safes ∩ (runTrace h w calls).mines = ∅ ∧
    (∀ c ∈ (runTrace h w calls).mines, c ∈ M) ∧
    (∀ c ∈ (runTrace h w calls).safes, c ∉ M) := by
  have hs := sound_runTrace hc
  refine ⟨?_, hs.2.1, hs.1⟩
  rw [Finset.eq_empty_iff_forall_not_mem]
  intro c hcmem
  rw [Finset.mem_inter] at hcmem
  exact hs.1 c hcmem.1 (hs.2.1 c hcmem.2)

/-- Witness for C1 at a concrete consistent trace on a 2 by 2 board. -/
theorem c1_witness :
    consistentTrace 2 2 {(1, 1)} [((0, 0), 1)] ∧
    ((runTrace 2 2 [((0, 0), 1)]).safes ∩ (runTrace 2 2 [((0, 0), 1)]).mines = ∅ ∧
     (∀ c ∈ (runTrace 2 2 [((0, 0), 1)]).mines, c ∈ ({(1, 1)} : Finset Cell)) ∧
     (∀ c ∈ (runTrace 2 2 [((0, 0), 1)]).safes, c ∉ ({(1, 1)} : Finset Cell))) :=
  ⟨by decide, c1_soundness_and_disjointness 2 2 {(1, 1)} [((0, 0), 1)] (by decide)⟩

/-- C2.  Constraint well-formedness: after any sequence of `add_knowledge`
calls consistent with a fixed ground truth, every sentence in the knowledge
base satisfies `0 ≤ count ≤ |cells|`. -/
theorem c2_wellformed_counts (h w : ℤ) (M : Finset Cell) (calls : List (Cell × ℤ))
    (hc : consistentTrace h w M calls) :
    ∀ st ∈ (runTrace h w calls).knowledge,
      0 ≤ st.count ∧ st.count ≤ (st.cells.card : ℤ) := by
  have hs := sound_runTrace hc
  intro st hst
  have hh := hs.2.2 st hst
  unfold Sentence.holds at hh
  have hle : (st.cells ∩ M).card ≤ st.cells.card :=
    Finset.card_le_card Finset.inter_subset_left
  omega

/-- Witness for C2 at a concrete consistent trace. -/
theorem c2_witness :
    consistentTrace 2 2 (∅ : Finset Cell) [((0, 0), 0)] ∧
    ∀ st ∈ (runTrace 2 2 [((0, 0), 0)]).knowledge,
      0 ≤ st.count ∧ st.count ≤ (st.cells.card : ℤ) :=
  ⟨by decide, c2_wellformed_counts 2 2 ∅ [((0, 0), 0)] (by decide)⟩

/-- C3 counterexample.  A consistent three-observation trace on a 3 by 2 board
(mine at `(1,0)`) after which `add_knowledge` has returned but one more
propagation pass still produces a new fact: the resolution pass of the last
call staged the sentence `{(2,1)} = 0`, whose cell is not yet in `safes`. -/
theorem c3_counterexample :
    consistentTrace 3 2 {(1, 0)} [((0, 0), 1), ((0, 1), 1), ((2, 0), 1)] ∧
    propChanged (runTrace 3 2 [((0, 0), 1), ((0, 1), 1), ((2, 0), 1)]) = true :=
  ⟨by decide, by decide⟩

/-- C3, amended.  Quiescence holds at the point where the propagation loop
(step 4) exits, before the resolution pass: inside every `add_knowledge` call
the loop stops only when a pass marks nothing new, so re-running the pass on
the loop's result changes nothing; `add_knowledge` then runs the resolution
pass on exactly that state. -/
theorem c3_propagation_quiescent (s : AIState) (cell : Cell) (count : ℤ) :
    propChanged (propLoop (observeStep3 (observeSteps12 s cell) cell count)) = false ∧
    add_knowledge s cell count =
      observeStep5 (propLoop (observeStep3 (observeSteps12 s cell) cell count)) :=
  ⟨propChanged_propLoop _, rfl⟩

/-- C4 counterexample.  A consistent two-observation trace after which the
knowledge base holds two structurally equal sentences: step 3 appends the
observation sentence without any structural-equality check. -/
theorem c4_counterexample :
    consistentTrace 3 2 {(1, 0)} [((0, 0), 1), ((0, 1), 1)] ∧
    ¬ ((runTrace 3 2 [((0, 0), 1), ((0, 1), 1)]).knowledge).Nodup :=
  ⟨by decide, by decide⟩

/-- C4, amended.  Deduplication holds only for the sentences staged by the
resolution pass: the staged list never contains two structurally equal
sentences and never contains a sentence structurally equal to one already in
the knowledge base.  (Step 3 appends its observation sentence unchecked, so
the knowledge base itself may contain duplicates.) -/
theorem c4_staged_inferences_deduplicated (kn : List Sentence) :
    (inferencesOf kn).Nodup ∧ ∀ st ∈ inferencesOf kn, st ∉ kn :=
  ⟨nodup_inferencesOf kn, fun _ hst => (mem_inferencesOf.mp hst).1⟩

/-- Witness for C4's amended theorem at a concrete knowledge base. -/
theorem c4_witness :
    (inferencesOf [⟨{(0, 0), (0, 1)}, 1⟩, ⟨{(0, 0)}, 0⟩]).Nodup ∧
    (⟨{(0, 1)}, 1⟩ : Sentence) ∈
      inferencesOf [⟨{(0, 0), (0, 1)}, 1⟩, ⟨{(0, 0)}, 0⟩] ∧
    (⟨{(0, 1)}, 1⟩ : Sentence) ∉
      ([⟨{(0, 0), (0, 1)}, 1⟩, ⟨{(0, 0)}, 0⟩] : List Sentence) :=
  ⟨(c4_staged_inferences_deduplicated _).1, by decide,
   (c4_staged_inferences_deduplicated _).2 _ (by decide)⟩

/-- C5 counterexample.  With `(1,1)` already a known mine on a 2 by 2 board,
`add_knowledge ((0,0), 0)` raises no error and leaves a sentence with a
negative count in the knowledge base: the engine silently constructs a
negative-count sentence instead of failing fast. -/
theorem c5_counterexample :
    ∃ st ∈ (add_knowledge ((initialAI 2 2).mark_mine (1, 1)) (0, 0) 0).knowledge,
      st.count < 0 := by decide

/-- C5, amended.  `add_knowledge` performs no validation and surfaces no
error: re-observing a cell only re-inserts it into the `moves_made` set (a
no-op), and a reported count smaller than the number of neighbors already
known to be mines silently appends a sentence whose count is negative. -/
theorem c5_no_validation_negative_count (s : AIState) (cell : Cell) (count : ℤ)
    (hneg : count < ((chebNbrsDim s.height s.width cell ∩ s.mines).card : ℤ))
    (hne : (chebNbrsDim s.height s.width cell \ s.mines) \ s.safes ≠ ∅) :
    (cell ∈ s.moves_made → (observeSteps12 s cell).moves_made = s.moves_made) ∧
    ∃ st ∈ (observeStep3 (observeSteps12 s cell) cell count).knowledge,
      st.count < 0 := by
  constructor
  · intro hc
    show insert cell s.moves_made = s.moves_made
    exact Finset.insert_eq_self.mpr hc
  · simp only [observeStep3]
    rw [if_neg (by rw [buildNbrs_observe_fst]; exact hne)]
    refine ⟨⟨(buildNbrs (observeSteps12 s cell) cell count).1,
      (buildNbrs (observeSteps12 s cell) cell count).2⟩, ?_, ?_⟩
    · exact List.mem_append_right _ (List.mem_singleton_self _)
    · show (buildNbrs (observeSteps12 s cell) cell count).2 < 0
      rw [buildNbrs_observe_snd]
      omega

/-- Witness for C5's amended theorem: a state with one move made and one known
mine, re-observed with an inconsistently small count. -/
theorem c5_witness :
    ((0 : ℤ) < ((chebNbrsDim 2 2 (0, 0) ∩ ({(1, 1)} : Finset Cell)).card : ℤ)) ∧
    ((chebNbrsDim 2 2 (0, 0) \ ({(1, 1)} : Finset Cell)) \ (∅ : Finset Cell) ≠ ∅) ∧
    (0, 0) ∈ (({(0, 0)}) : Finset Cell) ∧
    ((observeSteps12 (⟨2, 2, {(0, 0)}, {(1, 1)}, ∅, []⟩ : AIState) (0, 0)).moves_made =
      ({(0, 0)} : Finset Cell)) ∧
    (∃ st ∈ (observeStep3
        (observeSteps12 (⟨2, 2, {(0, 0)}, {(1, 1)}, ∅, []⟩ : AIState) (0, 0))
        (0, 0) 0).knowledge, st.count < 0) :=
  ⟨by decide, by decide, by decide,
   (c5_no_validation_negative_count (⟨2, 2, {(0, 0)}, {(1, 1)}, ∅, []⟩ : AIState)
     (0, 0) 0 (by decide) (by decide)).1 (by decide),
   (c5_no_validation_negative_count (⟨2, 2, {(0, 0)}, {(1, 1)}, ∅, []⟩ : AIState)
     (0, 0) 0 (by decide) (by decide)).2⟩

/-- C6.  Observation-sentence construction: for an in-bounds, not yet observed
cell, step 3 of `add_knowledge` builds exactly the in-bounds Chebyshev-1
neighborhood minus the known mines (each removed mine lowering the count by
one) minus the known safe cells (count unchanged), and appends the resulting
sentence precisely when its cell set is non-empty. -/
theorem c6_observation_sentence_construction (s : AIState) (cell : Cell) (count : ℤ)
    (hin : inBdsDim s.height s.width cell) (hobs : cell ∉ s.moves_made) :
    buildNbrs (observeSteps12 s cell) cell count =
      ((chebNbrsDim s.height s.width cell \ s.mines) \ s.safes,
       count - ((chebNbrsDim s.height s.width cell ∩ s.mines).card : ℤ)) ∧
    observeStep3 (observeSteps12 s cell) cell count =
      (if (chebNbrsDim s.height s.width cell \ s.mines) \ s.safes = ∅
       then observeSteps12 s cell
       else { observeSteps12 s cell with
              knowledge := (observeSteps12 s cell).knowledge ++
                [⟨(chebNbrsDim s.height s.width cell \ s.mines) \ s.safes,
                  count - ((chebNbrsDim s.height s.width cell ∩ s.mines).card : ℤ)⟩] }) := by
  have hfst := buildNbrs_observe_fst s cell count
  have hsnd := buildNbrs_observe_snd s cell count
  constructor
  · rw [Prod.ext_iff]
    exact ⟨hfst, hsnd⟩
  · simp only [observeStep3]
    rw [hfst, hsnd]

/-- Witness for C6 on a fresh 2 by 2 board. -/
theorem c6_witness :
    inBdsDim 2 2 (0, 0) ∧ (0, 0) ∉ (initialAI 2 2).moves_made ∧
    buildNbrs (observeSteps12 (initialAI 2 2) (0, 0)) (0, 0) 1 =
      ((chebNbrsDim 2 2 (0, 0) \ (initialAI 2 2).mines) \ (initialAI 2 2).safes,
       1 - ((chebNbrsDim 2 2 (0, 0) ∩ (initialAI 2 2).mines).card : ℤ)) :=
  ⟨by decide, by decide,
   (c6_observation_sentence_construction (initialAI 2 2) (0, 0) 1
     (by decide) (by decide)).1⟩

/-- C7.  Subset resolution: a sentence is staged by the resolution pass
exactly when it is the resolvent `⟨B.cells − A.cells, B.count − A.count⟩` of
an ordered pair of structurally distinct sentences of the knowledge base with
`A.cells ⊆ B.cells` and it is not structurally equal to any sentence already
present; the staged list itself contains no duplicates; and step 5 appends
exactly the staged list. -/
theorem c7_resolution_pass_characterization (kn : List Sentence) :
    (∀ st : Sentence, st ∈ inferencesOf kn ↔
      st ∉ kn ∧ ∃ a ∈ kn, ∃ b ∈ kn,
        a ≠ b ∧ a.cells ⊆ b.cells ∧ st = resolventOf a b) ∧
    (inferencesOf kn).Nodup ∧
    (∀ s : AIState, s.knowledge = kn →
      (observeStep5 s).knowledge = kn ++ inferencesOf kn) := by
  refine ⟨fun st => mem_inferencesOf, nodup_inferencesOf kn, ?_⟩
  rintro s rfl
  rfl

/-- Witness for C7: from `{A,B,C} = 1` and `{A,B} = 1` the pass stages
`{C} = 0`. -/
theorem c7_witness :
    (⟨{(0, 2)}, 0⟩ : Sentence) ∈
      inferencesOf [⟨{(0, 0), (0, 1), (0, 2)}, 1⟩, ⟨{(0, 0), (0, 1)}, 1⟩] :=
  ((c7_resolution_pass_characterization
      [⟨{(0, 0), (0, 1), (0, 2)}, 1⟩, ⟨{(0, 0), (0, 1)}, 1⟩]).1 _).mpr
    ⟨by decide, ⟨{(0, 0), (0, 1)}, 1⟩, by decide, ⟨{(0, 0), (0, 1), (0, 2)}, 1⟩,
     by decide, by decide, by decide, by decide⟩

/-- C8.  Monotonicity: across any sequence of public operations
(`add_knowledge`, `mark_safe`, `mark_mine`), the sets `moves_made`, `safes`
and `mines` only grow, and every sentence stays at its position with a cell
set that only shrinks — so no sentence ever regains a member it lost. -/
theorem c8_monotonicity (s : AIState) (ops : List PubOp) :
    stepMono s (ops.foldl applyOp s) :=
  stepMono_foldl_ops ops s

/-- Witness for C8 on a concrete operation sequence. -/
theorem c8_witness :
    stepMono (initialAI 2 2)
      ([PubOp.observe (0, 0) 1, PubOp.callMine (1, 1)].foldl applyOp (initialAI 2 2)) :=
  c8_monotonicity (initialAI 2 2) [PubOp.observe (0, 0) 1, PubOp.callMine (1, 1)]

/-- C9.  Random-move query: the eligible list enumerates exactly
`{all grid cells} − moves_made − mines`; the query returns `none` precisely
when that set is empty; any returned cell is eligible; and each eligible cell
is returned for exactly one draw value below the number of eligible cells
(uniformity of `random.choice` over a duplicate-free list). -/
theorem c9_random_move_query (s : AIState) :
    ((validMovesList s).toFinset =
      (gridCellsDim s.height s.width \ s.moves_made) \ s.mines) ∧
    (validMoves s = ∅ → ∀ k, make_random_move s k = none) ∧
    (validMoves s ≠ ∅ → ∀ k, ∃ c, make_random_move s k = some c) ∧
    (∀ (k : ℕ) (c : Cell), make_random_move s k = some c → c ∈ validMoves s) ∧
    (∀ c ∈ validMoves s, ((Finset.range (validMoves s).card).filter
      (fun k => make_random_move s k = some c)).card = 1) := by
  refine ⟨?_, fun hk k => make_random_move_none hk k, fun hk k => make_random_move_some hk k,
    fun _ _ hmk => make_random_move_mem hmk, fun _ hc => make_random_move_uniform hc⟩
  rw [validMovesList_toFinset]
  unfold validMoves
  ext c
  simp only [Finset.mem_sdiff]
  tauto

/-- Witness for C9: scenario of a 1 by 1 board whose only cell was already
observed — the query signals that no move is available. -/
theorem c9_witness :
    validMoves (⟨1, 1, {(0, 0)}, ∅, ∅, []⟩ : AIState) = ∅ ∧
    make_random_move (⟨1, 1, {(0, 0)}, ∅, ∅, []⟩ : AIState) 0 = none :=
  ⟨by decide, (c9_random_move_query (⟨1, 1, {(0, 0)}, ∅, ∅, []⟩ : AIState)).2.1 (by decide) 0⟩

/-- C10.  Fully resolved sentences are retained harmlessly: no public
operation shortens the knowledge list (sentences are only appended or mutated
in place, never removed), and a sentence with empty cell set and count 0
contributes nothing — both its extraction queries return the empty set, so
appending it changes neither `allSafes` nor `allMines`. -/
theorem c10_sentences_retained_inert :
    (∀ (s : AIState) (op : PubOp),
        s.knowledge.length ≤ (applyOp s op).knowledge.length) ∧
    Sentence.known_mines ⟨∅, 0⟩ = ∅ ∧ Sentence.known_safes ⟨∅, 0⟩ = ∅ ∧
    (∀ kn : List Sentence, allSafesOf (kn ++ [⟨∅, 0⟩]) = allSafesOf kn ∧
        allMinesOf (kn ++ [⟨∅, 0⟩]) = allMinesOf kn) :=
  ⟨fun s op => kbMono_length_le (stepMono_applyOp s op).2.2.2,
   known_mines_trivial, known_safes_trivial,
   fun kn => ⟨allSafesOf_append_trivial kn, allMinesOf_append_trivial kn⟩⟩
